import Mathlib

set_option maxRecDepth 100000

/-!
Shallow embedding of `pitch_detection.py`.

Signals and spectrogram magnitudes are modelled over `ℚ`; numpy 2-D arrays
are lists of rows (frequency bins), each row listing the time frames.
Helper routines that live in the repository's `util` module (not part of the
given sources) are modelled from the specification and marked as such in
their doc comments.  All definitions are executable.
-/

/-- Numeric epsilon floor used on parabolic-interpolation denominators
(the source sets `eps = 0.0000001`). -/
def eps : ℚ := 1 / 10000000

/-- Entry access for a numpy-style 2-D array stored as a list of bin rows;
out-of-range reads default to 0. -/
def getE (m : List (List ℚ)) (b f : ℕ) : ℚ := (m.getD b []).getD f 0

/-- Per-frame column maximum over all bins, as in `np.max(x, axis=0)`. -/
def colMax (m : List (List ℚ)) (f : ℕ) : ℚ :=
  (List.range m.length).foldl (fun a b => max a (getE m b f)) (getE m 0 f)

/-- Entry (b, f) of the thresholded array `x * (x > thresh * np.max(x, axis=0))`:
the magnitude survives only if it strictly exceeds `thresh` times its frame's
column maximum, otherwise it is zeroed. -/
def maskedVal (m : List (List ℚ)) (t : ℚ) (b f : ℕ) : ℚ :=
  if t * colMax m f < getE m b f then getE m b f else 0

/-- Row index of the upper neighbour of bin `b` in a `B`-row array padded with
one replicated row at each end (numpy "edge" padding): `min (b+1) (B-1)`. -/
def upIdx (B b : ℕ) : ℕ := min (b + 1) (B - 1)

/-- Entry (b, f) of the boolean array computed by `column_wise_local_max`:
on the thresholded array, a strict rise over the bin below and a non-strict
rise over the bin above, with edge rows replicated.  (The lower neighbour of
bin 0 is bin 0 itself, via truncated subtraction.) -/
def column_wise_local_max (m : List (List ℚ)) (t : ℚ) (b f : ℕ) : Bool :=
  decide (maskedVal m t (b - 1) f < maskedVal m t b f) &&
  decide (maskedVal m t (upIdx m.length b) f ≤ maskedVal m t b f)

/-- Row r of `shift_two = spec[2:] - spec[:-2]` at frame f (row r corresponds
to bin r+1 of the spectrogram). -/
def shift_two (m : List (List ℚ)) (r f : ℕ) : ℚ := getE m (r + 2) f - getE m r f

/-- Row r of `average = shift_two * 0.5`. -/
def averageA (m : List (List ℚ)) (r f : ℕ) : ℚ := shift_two m r f * (1 / 2)

/-- Row r of the denominator array `2 * (spec[1:-1] - shift_two)` before
clamping. -/
def denA (m : List (List ℚ)) (r f : ℕ) : ℚ := 2 * (getE m (r + 1) f - shift_two m r f)

/-- Denominator after the clamp `shift[shift < eps] = eps`. -/
def denAclamped (m : List (List ℚ)) (r f : ℕ) : ℚ :=
  if denA m r f < eps then eps else denA m r f

/-- Row r of the sub-bin shift array `average / shift` (after clamping). -/
def shiftA (m : List (List ℚ)) (r f : ℕ) : ℚ := averageA m r f / denAclamped m r f

/-- Entry (b, f) of `np.pad(average, ((1,1),(0,0)), mode='constant')`:
zero on the two boundary bins, `average[b-1]` in between. -/
def avgPad (m : List (List ℚ)) (b f : ℕ) : ℚ :=
  if 1 ≤ b ∧ b + 1 < m.length then averageA m (b - 1) f else 0

/-- Entry (b, f) of the zero-padded shift array. -/
def shiftPad (m : List (List ℚ)) (b f : ℕ) : ℚ :=
  if 1 ≤ b ∧ b + 1 < m.length then shiftA m (b - 1) f else 0

/-- Entry (b, f) of the skew correction `dskew = 0.5 * avg * shift`. -/
def dskewE (m : List (List ℚ)) (b f : ℕ) : ℚ :=
  (1 / 2) * avgPad m b f * shiftPad m b f

/-- Entry (b, f) of the `pitches` array of `detect_pitch_parabolic`: the
refined frequency `(bin + shift) * sample_rate / win_len` at selected peaks
(threshold 0.1, window length 4096 as hard-coded in the source), 0 elsewhere. -/
def pitchesE (m : List (List ℚ)) (fs : ℚ) (b f : ℕ) : ℚ :=
  if column_wise_local_max m (1 / 10) b f then
    ((b : ℚ) + shiftPad m b f) * fs / 4096 else 0

/-- Entry (b, f) of the `magnitudes` array of `detect_pitch_parabolic`:
`spec + dskew` at selected peaks, 0 elsewhere. -/
def magsE (m : List (List ℚ)) (b f : ℕ) : ℚ :=
  if column_wise_local_max m (1 / 10) b f then getE m b f + dskewE m b f else 0

/-- First row index attaining the per-frame maximum of `magnitudes`
(`np.argmax(magnitudes, axis=0)` at frame f). -/
def argmaxCol (m : List (List ℚ)) (f : ℕ) : ℕ :=
  (List.range m.length).foldl (fun best b => if magsE m best f < magsE m b f then b else best) 0

/-- Number of time frames of the spectrogram (width of its rows). -/
def nFrames (m : List (List ℚ)) : ℕ := (m.headD []).length

/-- Value returned by `detect_pitch_parabolic` as a function of the magnitude
spectrogram: `pitches[np.argmax(magnitudes, axis=0)]`.  Indexing a 2-D array
with the length-F vector of per-frame argmax rows selects whole rows, so the
result is a list of F rows, each of width F.  (The STFT front end `stft_mag`
is an external collaborator; this models the refinement, selection and return
value of the source on the spectrogram it produces.) -/
def detect_pitch_parabolic_core (m : List (List ℚ)) (fs : ℚ) : List (List ℚ) :=
  ((List.range (nFrames m)).map (fun f => argmaxCol m f)).map
    (fun b => (List.range (nFrames m)).map (fun g => pitchesE m fs b g))

/-- Arithmetic mean of a list (`np.mean`); 0 for the empty list. -/
def meanQ (s : List ℚ) : ℚ := s.sum / (s.length : ℚ)

/-- Contents of the caller's `signal` buffer after `detect_pitch_parabolic`
returns: the in-place `signal -= np.mean(signal)` on line 25 writes through to
the caller's array, leaving it with the mean subtracted from every sample. -/
def detect_pitch_parabolic_bufferAfter (signal : List ℚ) : List ℚ :=
  signal.map (fun x => x - meanQ signal)

/-- Term k of the full linear convolution
`fftconvolve(signal, signal[::-1], mode='full')` at output index n. -/
def corrFullAt (s : List ℚ) (n : ℕ) : ℚ :=
  ((List.range s.length).map (fun k =>
    if k ≤ n ∧ n - k < s.length then s.getD k 0 * s.reverse.getD (n - k) 0 else 0)).sum

/-- Full correlation sequence `fftconvolve(signal, signal[::-1], mode='full')`
(length `2*len - 1`). -/
def corrFull (s : List ℚ) : List ℚ := (List.range (2 * s.length - 1)).map (corrFullAt s)

/-- Autocorrelation curve kept by `detect_pitch_autocorr`:
`corr = corr[len(corr)//2:]`, the non-negative-lag half. -/
def corrHalf (s : List ℚ) : List ℚ := (corrFull s).drop ((2 * s.length - 1) / 2)

/-- Modelled from the spec: `find_peaks` from the repository's `util` module.
It returns all interior strict local maxima of a 1-D curve (greater than both
neighbours, no magnitude threshold), in ascending index order. -/
def find_peaks (c : List ℚ) : List ℕ :=
  (List.range c.length).filter (fun p =>
    decide (0 < p) && decide (p + 1 < c.length) &&
    decide (c.getD (p - 1) 0 < c.getD p 0) && decide (c.getD (p + 1) 0 < c.getD p 0))

/-- Modelled from the spec: the refined (sub-sample) peak position computed by
`parabolic_interp` from `util`, using the same three-point formula as the
spectral path (central difference, epsilon-clamped denominator). -/
def refLag (c : List ℚ) (p : ℕ) : ℚ :=
  (p : ℚ) + ((c.getD (p + 1) 0 - c.getD (p - 1) 0) * (1 / 2)) /
    (if 2 * (c.getD p 0 - (c.getD (p + 1) 0 - c.getD (p - 1) 0)) < eps then eps
     else 2 * (c.getD p 0 - (c.getD (p + 1) 0 - c.getD (p - 1) 0)))

/-- Modelled from the spec: the refined peak value computed by
`parabolic_interp` (raw value plus the skew correction `0.5 * avg * shift`). -/
def refVal (c : List ℚ) (p : ℕ) : ℚ :=
  c.getD p 0 + (1 / 2) * ((c.getD (p + 1) 0 - c.getD (p - 1) 0) * (1 / 2)) *
    (((c.getD (p + 1) 0 - c.getD (p - 1) 0) * (1 / 2)) /
      (if 2 * (c.getD p 0 - (c.getD (p + 1) 0 - c.getD (p - 1) 0)) < eps then eps
       else 2 * (c.getD p 0 - (c.getD (p + 1) 0 - c.getD (p - 1) 0))))

/-- Modelled from the spec: `parabolic_interp` from `util`, returning the pair
of refined positions and refined values at the given peak indices. -/
def parabolic_interp (c : List ℚ) (ps : List ℕ) : List ℚ × List ℚ :=
  (ps.map (refLag c), ps.map (refVal c))

/-- Embedding of `detect_pitch_autocorr`: fold the full FFT correlation to
non-negative lags, find interior strict local maxima, refine each lag by
parabolic interpolation and convert lag L to frequency `fs / L`; empty peak
lists propagate to an empty candidate list. -/
def detect_pitch_autocorr (s : List ℚ) (fs : ℚ) : List ℚ :=
  let c := corrHalf s
  let pk := find_peaks c
  if pk.isEmpty then [] else ((parabolic_interp c pk).1).map (fun L => fs / L)

/-- Modelled from the spec: `clean_audio` from `util` removes the DC offset,
producing a new sequence (the tracking path's cleaning step). -/
def clean_audio (s : List ℚ) : List ℚ := s.map (fun x => x - meanQ s)

/-- Window of the cleaned signal starting at sample `k * W`
(`snd[i : min(len(snd), i + window_len)]`). -/
def windowSeg (s : List ℚ) (W k : ℕ) : List ℚ := (s.drop (k * W)).take W

/-- The list of `(sample offset, window)` pairs visited by the tracking loop
`for i in range(0, len(snd), window_len)`. -/
def windows (s : List ℚ) (W : ℕ) : List (ℕ × List ℚ) :=
  if W = 0 then [] else
    (List.range ((s.length + W - 1) / W)).map (fun k => (k * W, windowSeg s W k))

/-- One iteration of the tracking loop of `detect_pitches` on the running
state `(pitches, all_pitches)`: if the window has candidates, apply the
octave-error correction (consulting `pitches[-1]`, the last entry of the
event list), extend the contour, and append an event when the frequency
change reaches the threshold. -/
def trackStep (fs t : ℚ) (st : List (ℚ × ℚ) × List (ℚ × ℚ)) (iw : ℕ × List ℚ) :
    List (ℚ × ℚ) × List (ℚ × ℚ) :=
  match detect_pitch_autocorr iw.2 fs with
  | [] => st
  | p0 :: rest =>
      let lastPitch := (st.1.getLastD (0, 0)).2
      let pitch :=
        if rest ≠ [] ∧ iw.1 ≠ 0 ∧ |p0 - lastPitch| > |lastPitch - rest.headD 0| ∧
            |rest.headD 0 / p0 - 2| < 5
        then rest.headD 0 else p0
      (if |pitch - lastPitch| ≥ t then st.1 ++ [((iw.1 : ℚ) / fs, pitch)] else st.1,
       st.2 ++ [((iw.1 : ℚ) / fs, pitch)])

/-- Embedding of `detect_pitches` (the mono `assert` is modelled separately by
`detect_pitches_checked`): clean the signal, run the tracking loop from the
sentinel state `([(0, 0)], [])`, and return the event list with the sentinel
stripped together with the full contour. -/
def detect_pitches (fs : ℚ) (snd : List ℚ) (W : ℕ) (t : ℚ) :
    List (ℚ × ℚ) × List (ℚ × ℚ) :=
  let st := (windows (clean_audio snd) W).foldl (trackStep fs t) ([(0, 0)], [])
  (st.1.tail, st.2)

/-- Input buffers as seen by `detect_pitches`: a mono (1-D) buffer or a
multi-channel (2-D) one, which `assert snd.ndim == 1` rejects. -/
inductive Snd where
  | mono (xs : List ℚ) : Snd
  | multi (xss : List (List ℚ)) : Snd
deriving DecidableEq

/-- Failure surfaced by the tracking entry point (the spec's InvalidArgument,
raised by the `assert` on non-mono input). -/
inductive PDError where
  | invalidArgument : PDError
deriving DecidableEq

/-- The tracking entry point with its input guard: `assert snd.ndim == 1`
fails on multi-channel buffers before any processing; mono buffers (of any
length) proceed to the tracking loop. -/
def detect_pitches_checked (fs : ℚ) (snd : Snd) (W : ℕ) (t : ℚ) :
    Except PDError (List (ℚ × ℚ) × List (ℚ × ℚ)) :=
  match snd with
  | Snd.multi _ => Except.error PDError.invalidArgument
  | Snd.mono xs => Except.ok (detect_pitches fs xs W t)

/-- Variant of the tracking loop body written from C1's reading of the spec:
the octave-error correction consults the most recent entry of the contour
`all_pitches` (sentinel frequency 0 only while the contour is empty), while
the event gate still consults the event list's last entry. -/
def trackStepSpecC1 (fs t : ℚ) (st : List (ℚ × ℚ) × List (ℚ × ℚ)) (iw : ℕ × List ℚ) :
    List (ℚ × ℚ) × List (ℚ × ℚ) :=
  match detect_pitch_autocorr iw.2 fs with
  | [] => st
  | p0 :: rest =>
      let lastContour := (st.2.getLastD (0, 0)).2
      let lastEvent := (st.1.getLastD (0, 0)).2
      let pitch :=
        if rest ≠ [] ∧ iw.1 ≠ 0 ∧ |p0 - lastContour| > |lastContour - rest.headD 0| ∧
            |rest.headD 0 / p0 - 2| < 5
        then rest.headD 0 else p0
      (if |pitch - lastEvent| ≥ t then st.1 ++ [((iw.1 : ℚ) / fs, pitch)] else st.1,
       st.2 ++ [((iw.1 : ℚ) / fs, pitch)])

/-- The tracker as C1 reads it: identical to `detect_pitches` except that the
octave-error correction compares against the contour's last point. -/
def detect_pitchesSpecC1 (fs : ℚ) (snd : List ℚ) (W : ℕ) (t : ℚ) :
    List (ℚ × ℚ) × List (ℚ × ℚ) :=
  let st := (windows (clean_audio snd) W).foldl (trackStepSpecC1 fs t) ([(0, 0)], [])
  (st.1.tail, st.2)

/-- The tracking loop written as an explicit recursion carrying the last
retained event frequency (seeded with the sentinel's 0 Hz), as the spec's
design notes describe: the octave-error correction and the event gate both
read this carried value, and the sentinel never appears in the output. -/
def trackRec (fs t : ℚ) (lastEv : ℚ) : List (ℕ × List ℚ) → List (ℚ × ℚ) × List (ℚ × ℚ)
  | [] => ([], [])
  | iw :: ws =>
      match detect_pitch_autocorr iw.2 fs with
      | [] => trackRec fs t lastEv ws
      | p0 :: rest =>
          let pitch :=
            if rest ≠ [] ∧ iw.1 ≠ 0 ∧ |p0 - lastEv| > |lastEv - rest.headD 0| ∧
                |rest.headD 0 / p0 - 2| < 5
            then rest.headD 0 else p0
          if |pitch - lastEv| ≥ t then
            let r := trackRec fs t pitch ws
            (((iw.1 : ℚ) / fs, pitch) :: r.1, ((iw.1 : ℚ) / fs, pitch) :: r.2)
          else
            let r := trackRec fs t lastEv ws
            (r.1, ((iw.1 : ℚ) / fs, pitch) :: r.2)

/-- The tracker as an explicit fold with a carried last-event frequency;
`detect_pitches` is proved equal to this below. -/
def detect_pitches_trackfold (fs : ℚ) (snd : List ℚ) (W : ℕ) (t : ℚ) :
    List (ℚ × ℚ) × List (ℚ × ℚ) :=
  trackRec fs t 0 (windows (clean_audio snd) W)

/-- The event-detection gate as a standalone pass over a contour: keep an
entry exactly when its frequency differs from the previously retained
frequency (seeded with the sentinel's 0 Hz) by at least the threshold. -/
def gateFilter (t : ℚ) : ℚ → List (ℚ × ℚ) → List (ℚ × ℚ)
  | _, [] => []
  | last, e :: es =>
      if |e.2 - last| ≥ t then e :: gateFilter t e.2 es else gateFilter t last es

/-- Concrete 3-bin, 2-frame spectrogram used to evaluate the spectral path:
frame 0 is silent, frame 1 has an interior peak at bin 1. -/
def mC2 : List (List ℚ) := [[0, 4], [0, 5], [0, 1]]

/-- Concrete segment whose folded autocorrelation has peaks at lags 2, 4, 6, 8
with values 18, 9, 19, 9: the lag-6 peak is stronger than the lag-4 peak. -/
def sC6 : List ℚ := [3, 1, 3, 0, 0, 0, 3, 1, 3, 0, 0, 0]

/-- Concrete zero-mean signal of three 8-sample windows: a lone candidate at
376 Hz (event retained), a lone candidate at 329 Hz (no event, contour moves),
then two candidates 448 Hz and 224 Hz (at sample rate 1316). -/
def sndC1 : List ℚ :=
  [2, -1, -1, 2, -1, -1, 0, 0] ++ [1, 0, -1, 0, 1, 0, -1, 0] ++
  [1, 0, -1, 1, 0, -1, 1, -1]

/-- Concrete zero-mean signal: an empty-candidate first window, a
single-candidate window at 94 Hz (event retained), then the first window with
two candidates, 112 Hz and 56 Hz (at sample rate 329). -/
def sndC10ce : List ℚ :=
  [0, 0, 0, 0, 0, 0, 0, 0] ++ [2, -1, -1, 2, -1, -1, 0, 0] ++
  [1, 0, -1, 1, 0, -1, 1, -1]

/-- Concrete zero-mean signal: an empty-candidate first window followed by a
window with two candidates, 16 Hz and 8 Hz (at sample rate 47). -/
def sndC10w : List ℚ :=
  [0, 0, 0, 0, 0, 0, 0, 0] ++ [1, 0, -1, 1, 0, -1, 1, -1]

/-- C2: the claim says `detect_pitch_parabolic` returns a one-dimensional
sequence with one frequency per time-frame and an empty value for peakless
frames.  Evaluating the source's return expression
`pitches[np.argmax(magnitudes, axis=0)]` on a 3-bin, 2-frame spectrogram
instead yields a 2-D frames-by-frames array (row selection by the argmax
vector), and the peakless frame contributes plain 0 Hz entries. -/
theorem C2_code_returns_matrix :
    detect_pitch_parabolic_core mC2 4096 = [[0, 0], [0, 29 / 32]] ∧
    nFrames mC2 = 2 := by with_unfolding_all decide

/-- C9 counterexample: after `detect_pitch_parabolic` runs on the buffer
[1, 3], the caller's buffer no longer holds its original contents — the
in-place DC removal `signal -= np.mean(signal)` mutates it to [-1, 1]. -/
theorem C9_counterexample :
    detect_pitch_parabolic_bufferAfter [1, 3] ≠ [1, 3] := by with_unfolding_all decide

/-- C9 amended: the DC-offset removal of `detect_pitch_parabolic` mutates the
caller's buffer in place; the buffer is left unchanged exactly when the
signal's mean is already zero. -/
theorem C9_amended_buffer_mutation (signal : List ℚ) :
    detect_pitch_parabolic_bufferAfter signal = signal ↔ meanQ signal = 0 := by
  constructor
  · intro h
    cases signal with
    | nil => simp [meanQ]
    | cons x xs =>
        have hx : x - meanQ (x :: xs) = x := by
          have hh := congrArg (fun l => l.headD 0) h
          simpa [detect_pitch_parabolic_bufferAfter] using hh
        exact sub_eq_self.mp hx
  · intro h
    simp [detect_pitch_parabolic_bufferAfter, h]

/-- C8 counterexample: an empty mono buffer is not rejected by the tracking
entry point; `assert snd.ndim == 1` passes and the call returns empty event
and contour lists instead of failing with InvalidArgument. -/
theorem C8_counterexample :
    detect_pitches_checked 44100 (Snd.mono []) 2048 10 = Except.ok ([], []) := rfl

/-- C8 amended: the tracking entry point fails with InvalidArgument exactly
for multi-channel buffers, before producing any output; every mono buffer —
including the empty one — passes the guard and is processed normally. -/
theorem C8_amended_guard (fs t : ℚ) (W : ℕ) :
    (∀ xss, detect_pitches_checked fs (Snd.multi xss) W t =
      Except.error PDError.invalidArgument) ∧
    (∀ xs, detect_pitches_checked fs (Snd.mono xs) W t =
      Except.ok (detect_pitches fs xs W t)) :=
  ⟨fun _ => rfl, fun _ => rfl⟩

/-- C6 counterexample: on the segment `sC6` the candidates come out in
ascending-lag order [2, 4, 6, 8], but the lag-6 peak is strictly stronger
than the lag-4 peak listed before it — both as a raw correlation value
(19 vs 9) and as a refined interpolated value — so the returned order is not
"strongest first". -/
theorem C6_counterexample :
    find_peaks (corrHalf sC6) = [2, 4, 6, 8] ∧
    (corrHalf sC6).getD 4 0 < (corrHalf sC6).getD 6 0 ∧
    refVal (corrHalf sC6) 4 < refVal (corrHalf sC6) 6 ∧
    detect_pitch_autocorr sC6 1 = [10 / 19, 2 / 9, 1 / 6, 10 / 79] := by
  with_unfolding_all decide

/-- C1 counterexample: on the concrete signal `sndC1` the tracker's output
differs from the output of the variant that feeds the octave-error correction
with the contour's last point, so the correction cannot be reading the
contour: in the third window the code keeps 448 Hz (the event list's last
pitch, 376 Hz, is closer to it) while the contour-based reading would replace
it by 224 Hz (the contour's last pitch is 329 Hz). -/
theorem C1_counterexample :
    detect_pitches 1316 sndC1 8 50 ≠ detect_pitchesSpecC1 1316 sndC1 8 50 := by
  with_unfolding_all decide

/-- C10 counterexample: in `sndC10ce` the first window yields no candidates
and the first window with at least two candidates (112 Hz and 56 Hz) comes
after a single-candidate window whose 94 Hz pitch was retained as an event;
although the claim's condition |112 - 0| > |0 - 56| and |56/112 - 2| < 5
holds, the first candidate is kept (the correction compares against 94, not
against the 0 Hz sentinel), so the contour reads 112 Hz, not 56 Hz. -/
theorem C10_counterexample :
    detect_pitch_autocorr (windowSeg (clean_audio sndC10ce) 8 0) 329 = [] ∧
    detect_pitch_autocorr (windowSeg (clean_audio sndC10ce) 8 1) 329 = [94] ∧
    detect_pitch_autocorr (windowSeg (clean_audio sndC10ce) 8 2) 329 = [112, 56] ∧
    |(112 : ℚ) - 0| > |(0 : ℚ) - 56| ∧ |(56 : ℚ) / 112 - 2| < 5 ∧
    (detect_pitches 329 sndC10ce 8 10).2 = [(8 / 329, 94), (16 / 329, 112)] := by
  with_unfolding_all decide

/-- Every entry read through `getE` from a spectrogram with non-negative rows
is non-negative (out-of-range reads give 0). -/
theorem getE_nonneg {m : List (List ℚ)} (hnn : ∀ r ∈ m, ∀ v ∈ r, 0 ≤ v)
    (b f : ℕ) : 0 ≤ getE m b f := by
  unfold getE
  rcases lt_or_le b m.length with hb | hb
  · rcases lt_or_le f (m.getD b []).length with hf | hf
    · rw [List.getD_eq_getElem _ _ hf]
      refine hnn _ ?_ _ (List.getElem_mem hf)
      rw [List.getD_eq_getElem _ _ hb]
      exact List.getElem_mem hb
    · rw [List.getD_eq_default _ _ hf]
  · rw [List.getD_eq_default _ _ hb]
    simp

/-- The seed of a running-max fold bounds the fold's value from below. -/
theorem le_foldl_max (g : ℕ → ℚ) (l : List ℕ) :
    ∀ a : ℚ, a ≤ l.foldl (fun acc b => max acc (g b)) a := by
  induction l with
  | nil => intro a; exact le_refl a
  | cons x xs ih =>
      intro a
      exact le_trans (le_max_left a (g x)) (ih (max a (g x)))

/-- The per-frame column maximum of a non-negative spectrogram is
non-negative. -/
theorem colMax_nonneg {m : List (List ℚ)} (hnn : ∀ r ∈ m, ∀ v ∈ r, 0 ≤ v)
    (f : ℕ) : 0 ≤ colMax m f :=
  le_trans (getE_nonneg hnn 0 f) (le_foldl_max _ _ _)

/-- Thresholded entries are non-negative when the spectrogram is. -/
theorem maskedVal_nonneg {m : List (List ℚ)} (hnn : ∀ r ∈ m, ∀ v ∈ r, 0 ≤ v)
    (t : ℚ) (b f : ℕ) : 0 ≤ maskedVal m t b f := by
  unfold maskedVal
  split
  · exact getE_nonneg hnn b f
  · exact le_refl 0

/-- Thresholding never increases an entry of a non-negative spectrogram. -/
theorem maskedVal_le {m : List (List ℚ)} (hnn : ∀ r ∈ m, ∀ v ∈ r, 0 ≤ v)
    (t : ℚ) (b f : ℕ) : maskedVal m t b f ≤ getE m b f := by
  unfold maskedVal
  split
  · exact le_refl _
  · exact getE_nonneg hnn b f

/-- C3: for every non-negative spectrogram and non-negative threshold,
`column_wise_local_max` selects exactly the (bin, frame) positions whose
magnitude strictly exceeds `thresh` times the frame's column maximum, is a
strict local maximum versus the bin below, and a non-strict local maximum
versus the bin above, where edge rows are compared against the replicated
boundary value of the original magnitudes (bin 0 against itself, the top bin
against itself); in particular the forward direction's first conjunct says no
selected bin is at or below `thresh * columnMax`. -/
theorem C3_cwlm_characterization (m : List (List ℚ)) (t : ℚ) (b f : ℕ)
    (hnn : ∀ r ∈ m, ∀ v ∈ r, 0 ≤ v) (ht : 0 ≤ t) :
    column_wise_local_max m t b f = true ↔
      (t * colMax m f < getE m b f ∧ getE m (b - 1) f < getE m b f ∧
        getE m (upIdx m.length b) f ≤ getE m b f) := by
  have h0 : 0 ≤ t * colMax m f := mul_nonneg ht (colMax_nonneg hnn f)
  constructor
  · intro h
    rw [column_wise_local_max, Bool.and_eq_true, decide_eq_true_eq,
      decide_eq_true_eq] at h
    obtain ⟨h1, h2⟩ := h
    have hpos : 0 < maskedVal m t b f :=
      lt_of_le_of_lt (maskedVal_nonneg hnn t (b - 1) f) h1
    have hmask : t * colMax m f < getE m b f := by
      by_contra hc
      rw [maskedVal, if_neg hc] at hpos
      exact lt_irrefl 0 hpos
    have hb : maskedVal m t b f = getE m b f := by rw [maskedVal, if_pos hmask]
    refine ⟨hmask, ?_, ?_⟩
    · rw [hb] at h1
      by_cases hmb : t * colMax m f < getE m (b - 1) f
      · rw [maskedVal, if_pos hmb] at h1
        exact h1
      · exact lt_of_le_of_lt (not_lt.mp hmb) hmask
    · rw [hb] at h2
      by_cases hmu : t * colMax m f < getE m (upIdx m.length b) f
      · rw [maskedVal, if_pos hmu] at h2
        exact h2
      · exact le_trans (not_lt.mp hmu) (le_of_lt hmask)
  · rintro ⟨hmask, hlow, hup⟩
    have hb : maskedVal m t b f = getE m b f := by rw [maskedVal, if_pos hmask]
    rw [column_wise_local_max, Bool.and_eq_true, decide_eq_true_eq,
      decide_eq_true_eq]
    constructor
    · rw [hb, maskedVal]
      split
      · exact hlow
      · exact lt_of_le_of_lt h0 hmask
    · rw [hb, maskedVal]
      split
      · exact hup
      · exact le_trans h0 (le_of_lt hmask)

/-- C3 witness: the characterization instantiated at bin 1, frame 1 of the
concrete spectrogram `mC2` with threshold 1/10. -/
theorem C3_witness :
    column_wise_local_max mC2 (1 / 10) 1 1 = true ↔
      ((1 : ℚ) / 10 * colMax mC2 1 < getE mC2 1 1 ∧
        getE mC2 0 1 < getE mC2 1 1 ∧
        getE mC2 (upIdx mC2.length 1) 1 ≤ getE mC2 1 1) :=
  C3_cwlm_characterization mC2 (1 / 10) 1 1 (by with_unfolding_all decide)
    (by norm_num)

/-- C4: at every interior bin selected as a peak, the vectorized pipeline of
`detect_pitch_parabolic` computes exactly the claimed refinement: with
d2 = spec[b+1] - spec[b-1], avg = d2/2 and den = 2*(spec[b] - d2) clamped up
to eps when below it, the stored frequency is (b + avg/den) * fs / 4096 and
the stored magnitude is spec[b] + 0.5 * avg * (avg/den). -/
theorem C4_refinement (m : List (List ℚ)) (fs : ℚ) (b f : ℕ)
    (hb1 : 1 ≤ b) (hb2 : b + 1 < m.length)
    (hpk : column_wise_local_max m (1 / 10) b f = true) :
    pitchesE m fs b f =
      ((b : ℚ) + ((getE m (b + 1) f - getE m (b - 1) f) / 2) /
        (if 2 * (getE m b f - (getE m (b + 1) f - getE m (b - 1) f)) < eps then eps
         else 2 * (getE m b f - (getE m (b + 1) f - getE m (b - 1) f)))) * fs / 4096 ∧
    magsE m b f =
      getE m b f + (1 / 2) * ((getE m (b + 1) f - getE m (b - 1) f) / 2) *
        (((getE m (b + 1) f - getE m (b - 1) f) / 2) /
          (if 2 * (getE m b f - (getE m (b + 1) f - getE m (b - 1) f)) < eps then eps
           else 2 * (getE m b f - (getE m (b + 1) f - getE m (b - 1) f)))) := by
  have e1 : b - 1 + 2 = b + 1 := by omega
  have e2 : b - 1 + 1 = b := by omega
  have hcond : 1 ≤ b ∧ b + 1 < m.length := ⟨hb1, hb2⟩
  constructor
  · rw [pitchesE, if_pos hpk, shiftPad, if_pos hcond, shiftA, averageA,
      denAclamped, denA, shift_two, e1, e2, mul_one_div]
  · rw [magsE, if_pos hpk, dskewE, avgPad, if_pos hcond, shiftPad, if_pos hcond,
      shiftA, averageA, denAclamped, denA, shift_two, e1, e2, mul_one_div]

/-- C4 witness: at bin 1, frame 1 of `mC2` with sample rate 4096 the refined
frequency evaluates to 29/32 Hz and the refined magnitude to 649/128. -/
theorem C4_witness :
    pitchesE mC2 4096 1 1 = 29 / 32 ∧ magsE mC2 1 1 = 649 / 128 := by
  have h := C4_refinement mC2 4096 1 1 (by norm_num) (by decide)
    (by with_unfolding_all decide)
  refine ⟨?_, ?_⟩
  · rw [h.1]
    with_unfolding_all decide
  · rw [h.2]
    with_unfolding_all decide

/-- Folding the tracking loop body from any state equals the explicit
recursion that carries the last retained event frequency: the appended
event and contour segments depend on the starting state only through the
frequency of the event list's last entry. -/
theorem foldl_trackStep_eq (fs t : ℚ) (ws : List (ℕ × List ℚ)) :
    ∀ st : List (ℚ × ℚ) × List (ℚ × ℚ),
      ws.foldl (trackStep fs t) st =
        (st.1 ++ (trackRec fs t (st.1.getLastD (0, 0)).2 ws).1,
         st.2 ++ (trackRec fs t (st.1.getLastD (0, 0)).2 ws).2) := by
  induction ws with
  | nil =>
      intro st
      simp [trackRec]
  | cons iw ws ih =>
      intro st
      rw [List.foldl_cons, ih (trackStep fs t st iw)]
      rcases h : detect_pitch_autocorr iw.2 fs with _ | ⟨p0, rest⟩
      · simp only [trackStep, trackRec, h]
      · simp only [trackStep, trackRec, h]
        by_cases hg : |(if rest ≠ [] ∧ iw.1 ≠ 0 ∧
            |p0 - (st.1.getLastD (0, 0)).2| > |(st.1.getLastD (0, 0)).2 - rest.headD 0| ∧
            |rest.headD 0 / p0 - 2| < 5 then rest.headD 0 else p0) -
            (st.1.getLastD (0, 0)).2| ≥ t
        · simp only [if_pos hg]
          simp [List.getLastD_concat, List.append_assoc]
        · simp only [if_neg hg]
          simp [List.append_assoc]

/-- The tracker equals the explicit last-retained-event recursion seeded with
the sentinel's 0 Hz frequency. -/
theorem detect_pitches_eq_trackRec (fs : ℚ) (snd : List ℚ) (W : ℕ) (t : ℚ) :
    detect_pitches fs snd W t = trackRec fs t 0 (windows (clean_audio snd) W) := by
  simp only [detect_pitches]
  rw [foldl_trackStep_eq]
  simp

/-- C1 amended: the lastPitch consulted by the octave-error correction is the
frequency of the event list's last entry — equivalently, the tracker equals
an explicit fold that carries the last retained event frequency (seeded with
the 0 Hz sentinel) and feeds it to both the correction and the event gate. -/
theorem C1_amended_eventLast (fs : ℚ) (snd : List ℚ) (W : ℕ) (t : ℚ) :
    detect_pitches fs snd W t = detect_pitches_trackfold fs snd W t :=
  detect_pitches_eq_trackRec fs snd W t

/-- In the carried-frequency recursion, the produced event list is exactly
the gate pass over the produced contour. -/
theorem trackRec_gate (fs t : ℚ) (ws : List (ℕ × List ℚ)) :
    ∀ l, (trackRec fs t l ws).1 = gateFilter t l (trackRec fs t l ws).2 := by
  induction ws with
  | nil =>
      intro l
      simp [trackRec, gateFilter]
  | cons iw ws ih =>
      intro l
      rcases h : detect_pitch_autocorr iw.2 fs with _ | ⟨p0, rest⟩
      · simp only [trackRec, h]
        exact ih l
      · simp only [trackRec, h]
        by_cases hg : |(if rest ≠ [] ∧ iw.1 ≠ 0 ∧
            |p0 - l| > |l - rest.headD 0| ∧
            |rest.headD 0 / p0 - 2| < 5 then rest.headD 0 else p0) - l| ≥ t
        · simp only [if_pos hg]
          simp only [gateFilter, hg, if_pos]
          rw [ih]
        · simp only [if_neg hg]
          simp only [gateFilter, hg]
          simp [ih]

/-- C5: the event list returned by `detect_pitches` is exactly the gate pass
over the returned contour: starting from the sentinel's 0 Hz, each contour
entry is appended to the event list iff its frequency differs from the last
retained frequency by at least the threshold, and the leading sentinel is
absent from the returned list. -/
theorem C5_eventGate (fs : ℚ) (snd : List ℚ) (W : ℕ) (t : ℚ) :
    (detect_pitches fs snd W t).1 =
      gateFilter t 0 (detect_pitches fs snd W t).2 := by
  rw [detect_pitches_eq_trackRec]
  exact trackRec_gate fs t _ 0

/-- C7: a segment whose folded autocorrelation curve has no interior strict
local maximum produces an empty candidate list (without failing), and a
tracking-loop iteration on such a window leaves the state — both contour and
event list — unchanged. -/
theorem C7_empty_skip (s : List ℚ) (fs t : ℚ) (i : ℕ)
    (st : List (ℚ × ℚ) × List (ℚ × ℚ))
    (hnomax : ∀ p, p < (corrHalf s).length →
      ¬(0 < p ∧ p + 1 < (corrHalf s).length ∧
        (corrHalf s).getD (p - 1) 0 < (corrHalf s).getD p 0 ∧
        (corrHalf s).getD (p + 1) 0 < (corrHalf s).getD p 0)) :
    detect_pitch_autocorr s fs = [] ∧ trackStep fs t st (i, s) = st := by
  have hpk : find_peaks (corrHalf s) = [] := by
    rw [find_peaks, List.filter_eq_nil_iff]
    intro p hp
    simp only [Bool.and_eq_true, decide_eq_true_eq]
    rintro ⟨⟨⟨hp0, hp1⟩, hlow⟩, hup⟩
    exact hnomax p (List.mem_range.mp hp) ⟨hp0, hp1, hlow, hup⟩
  have hempty : detect_pitch_autocorr s fs = [] := by
    simp [detect_pitch_autocorr, hpk]
  refine ⟨hempty, ?_⟩
  simp only [trackStep, hempty]

/-- C7 witness: the strictly increasing segment [1, 2, 3] has the decreasing
folded autocorrelation [14, 8, 3] with no interior local maximum; the
candidate list is empty and the tracking state is untouched. -/
theorem C7_witness :
    detect_pitch_autocorr [1, 2, 3] 2 = [] ∧
      trackStep 2 10 ([(0, 0)], []) (0, [1, 2, 3]) = ([(0, 0)], []) :=
  C7_empty_skip [1, 2, 3] 2 10 0 ([(0, 0)], []) (by with_unfolding_all decide)

/-- Windows whose segments yield no candidates are skipped by the carried
recursion without touching the carried frequency or the outputs. -/
theorem trackRec_append_empty (fs t : ℚ) :
    ∀ (A rest : List (ℕ × List ℚ)) (l : ℚ),
      (∀ w ∈ A, detect_pitch_autocorr w.2 fs = []) →
      trackRec fs t l (A ++ rest) = trackRec fs t l rest := by
  intro A
  induction A with
  | nil =>
      intro rest l _
      rfl
  | cons a A ih =>
      intro rest l hA
      have ha : detect_pitch_autocorr a.2 fs = [] := hA a (List.mem_cons_self a A)
      rw [List.cons_append]
      simp only [trackRec, ha]
      exact ih rest l (fun w hw => hA w (List.mem_cons_of_mem a hw))

/-- With a positive window length the tracking loop visits the windows at
offsets 0, W, 2W, ... as a mapped range. -/
theorem windows_eq_map (s : List ℚ) (W : ℕ) (hW : 0 < W) :
    windows s W = (List.range ((s.length + W - 1) / W)).map
      (fun j => (j * W, windowSeg s W j)) := by
  simp [windows, hW.ne']

/-- C10 amended: if every window before the first window with at least two
candidates yields an empty candidate list (so no event has been retained and
the correction still sees the 0 Hz sentinel), and that window is not the one
at offset 0, then its contour entry — the first contour entry overall —
carries the second candidate exactly when |c1 - 0| > |0 - c2| and
|c2/c1 - 2| < 5, and the first candidate otherwise. -/
theorem C10_amended (fs t : ℚ) (snd : List ℚ) (W k : ℕ) (c1 c2 : ℚ) (cs : List ℚ)
    (hW : 0 < W) (hk0 : 0 < k)
    (hkW : k * W < (clean_audio snd).length)
    (h0 : ∀ j, j < k → detect_pitch_autocorr (windowSeg (clean_audio snd) W j) fs = [])
    (h2 : detect_pitch_autocorr (windowSeg (clean_audio snd) W k) fs = c1 :: c2 :: cs) :
    (detect_pitches fs snd W t).2.headD (0, 0) =
      (((k * W : ℕ) : ℚ) / fs,
        if |c1 - 0| > |0 - c2| ∧ |c2 / c1 - 2| < 5 then c2 else c1) := by
  set s := clean_audio snd with hs
  set n := (s.length + W - 1) / W with hn
  have hweq : windows s W = (List.range n).map (fun j => (j * W, windowSeg s W j)) :=
    windows_eq_map s W hW
  have hkn : k < n := by
    rw [hn, Nat.lt_iff_add_one_le, Nat.le_div_iff_mul_le hW]
    have hkw1 : (k + 1) * W = k * W + W := by ring
    omega
  have hlen : (windows s W).length = n := by
    rw [hweq]
    simp
  have hsplit : windows s W =
      (windows s W).take k ++ (k * W, windowSeg s W k) :: (windows s W).drop (k + 1) := by
    conv_lhs => rw [← List.take_append_drop k (windows s W)]
    congr 1
    rw [List.drop_eq_getElem_cons (by rw [hlen]; exact hkn)]
    congr 1
    rw [List.getElem_of_eq hweq]
    simp
  have htake : ∀ w ∈ (windows s W).take k, detect_pitch_autocorr w.2 fs = [] := by
    intro w hw
    rw [List.mem_take_iff_getElem] at hw
    obtain ⟨j, hj, hjw⟩ := hw
    have hjk : j < k := lt_of_lt_of_le hj (min_le_left _ _)
    have hw2 : w = (j * W, windowSeg s W j) := by
      rw [← hjw, List.getElem_of_eq hweq]
      simp
    rw [hw2]
    exact h0 j hjk
  rw [detect_pitches_eq_trackRec, ← hs, hsplit,
    trackRec_append_empty fs t _ _ _ htake]
  simp only [trackRec, h2, List.headD_cons]
  have hi0 : k * W ≠ 0 := by
    have := Nat.mul_pos hk0 hW
    omega
  by_cases hcc : |c1 - 0| > |0 - c2| ∧ |c2 / c1 - 2| < 5
  · have hcondT : (c2 :: cs ≠ []) ∧ (k * W ≠ 0) ∧ |c1 - 0| > |0 - c2| ∧
        |c2 / c1 - 2| < 5 := ⟨List.cons_ne_nil c2 cs, hi0, hcc.1, hcc.2⟩
    rw [if_pos hcondT, if_pos hcc]
    by_cases hg : |c2 - 0| ≥ t
    · rw [if_pos hg]
      simp
    · rw [if_neg hg]
      simp
  · have hcondF : ¬((c2 :: cs ≠ []) ∧ (k * W ≠ 0) ∧ |c1 - 0| > |0 - c2| ∧
        |c2 / c1 - 2| < 5) := by
      intro hx
      exact hcc ⟨hx.2.2.1, hx.2.2.2⟩
    rw [if_neg hcondF, if_neg hcc]
    by_cases hg : |c1 - 0| ≥ t
    · rw [if_pos hg]
      simp
    · rw [if_neg hg]
      simp

/-- C10 witness: on `sndC10w` (first window empty, second window with
candidates 16 Hz and 8 Hz at sample rate 47), the correction fires against
the 0 Hz sentinel and the first contour entry carries the second candidate. -/
theorem C10_witness :
    (detect_pitches 47 sndC10w 8 10).2.headD (0, 0) = (8 / 47, 8) := by
  have h := C10_amended 47 10 sndC10w 8 1 16 8 [] (by norm_num) (by norm_num)
    (by with_unfolding_all decide) (by with_unfolding_all decide)
    (by with_unfolding_all decide)
  rw [h]
  with_unfolding_all decide

/-- Reading a mapped list at an in-range index through `getD` applies the
function to the original entry. -/
theorem getD_map_eq {α β : Type} (f : α → β) (l : List α) (j : ℕ) (d : α) (e : β)
    (hj : j < l.length) : (l.map f).getD j e = f (l.getD j d) := by
  rw [List.getD_eq_getElem _ _ (by simpa using hj), List.getD_eq_getElem _ _ hj,
    List.getElem_map]

/-- C6 amended: `detect_pitch_autocorr` returns one candidate per detected
peak of the folded autocorrelation, in ascending lag order (the peak list is
strictly increasing), each candidate being the sample rate divided by the
parabolically refined lag of its peak; this lag order is not in general a
strongest-first order. -/
theorem C6_amended (s : List ℚ) (fs : ℚ) :
    List.Sorted (· < ·) (find_peaks (corrHalf s)) ∧
    (detect_pitch_autocorr s fs).length = (find_peaks (corrHalf s)).length ∧
    ∀ j, j < (find_peaks (corrHalf s)).length →
      (detect_pitch_autocorr s fs).getD j 0 =
        fs / refLag (corrHalf s) ((find_peaks (corrHalf s)).getD j 0) := by
  refine ⟨?_, ?_, ?_⟩
  · exact (List.sorted_lt_range _).sublist (List.filter_sublist _)
  · by_cases h : find_peaks (corrHalf s) = []
    · simp [detect_pitch_autocorr, parabolic_interp, h]
    · simp [detect_pitch_autocorr, parabolic_interp, List.isEmpty_iff, h]
  · intro j hj
    have h : find_peaks (corrHalf s) ≠ [] := by
      intro hx
      rw [hx] at hj
      simp at hj
    have hc : (find_peaks (corrHalf s)).isEmpty = false := by
      simpa [List.isEmpty_iff] using h
    simp only [detect_pitch_autocorr, parabolic_interp, hc, Bool.false_eq_true,
      if_false]
    rw [List.map_map]
    exact getD_map_eq _ _ j 0 0 hj

/-- C6 amended witness: on `sC6` with unit sample rate, the second candidate
equals 1 divided by the refined lag of the second detected peak. -/
theorem C6_amended_witness :
    (detect_pitch_autocorr sC6 1).getD 1 0 =
      1 / refLag (corrHalf sC6) ((find_peaks (corrHalf sC6)).getD 1 0) :=
  (C6_amended sC6 1).2.2 1 (by with_unfolding_all decide)
